import Mathlib

/-!
# Verification of the gdtr translation key-recovery engine

Shallow embedding of the key-recovery core of `src/exporters/translation_exporter.cpp`
(struct `KeyWorker`) and the splitting utilities of `src/utility/common.cpp`
(namespace `gdre`), together with theorems settling the specification claims.

Godot `String` values (UTF-32 code-point sequences) are modelled as `List Char`.
Godot's insertion-ordered `HashMap` / `HashSet` are modelled as association lists /
lists with insert-if-absent, which reproduces both lookup and iteration order.
-/

namespace GDTR

/-- A Godot `String`: a sequence of UTF-32 code points. -/
abbrev Str := List Char

/-! ## Lexical utilities (`src/utility/common.cpp`, namespace `gdre`) -/

/-- `gdre::string_has_whitespace`: true iff the string contains a space, tab or newline. -/
def string_has_whitespace (s : Str) : Bool :=
  s.any fun c => c == ' ' || c == '\t' || c == '\n'

/-- `gdre::string_is_ascii`: true iff every code point is `≤ 127`. -/
def string_is_ascii (s : Str) : Bool :=
  s.all fun c => c.toNat ≤ 127

/-- `gdre::get_chars_in_set`: inserts into `ret` every character of `s` that is in
`chars`.  `ret` is an insertion-ordered set (append if absent). -/
def get_chars_in_set (s : Str) (chars : List Char) (ret : List Char) : List Char :=
  s.foldl (fun acc c => if chars.contains c && !acc.contains c then acc ++ [c] else acc) ret

/-- Body of the scan loop of `gdre::split_multichar`: walks the remaining characters,
carrying the `current` accumulator and the `ret` vector; returns `(ret, current,
remaining characters after an early `break`)`.  The early break happens when
`maxsplit > 0` and enough pieces were produced. -/
def split_multichar_loop (splitters : List Char) (allow_empty : Bool) (maxsplit : Int) :
    List Char → Str → List Str → List Str × Str × List Char
  | [], current, ret => (ret, current, [])
  | c :: cs, current, ret =>
    if splitters.contains c then
      if current.length > 0 || allow_empty then
        let ret' := ret ++ [current]
        if maxsplit > 0 && (ret'.length : Int) ≥ maxsplit - 1 then (ret', [], cs)
        else split_multichar_loop splitters allow_empty maxsplit cs [] ret'
      else split_multichar_loop splitters allow_empty maxsplit cs current ret
    else split_multichar_loop splitters allow_empty maxsplit cs (current ++ [c]) ret

/-- `gdre::split_multichar(String, HashSet<char32_t>, bool, int)`: split `s` on any
character of `splitters`; empty pieces are kept only when `allow_empty`; a positive
`maxsplit` bounds the number of pieces, the tail of the string being appended to the
last piece. -/
def split_multichar (s : Str) (splitters : List Char) (allow_empty : Bool)
    (maxsplit : Int) : List Str :=
  let r := split_multichar_loop splitters allow_empty maxsplit s [] []
  let current := r.2.1 ++ r.2.2
  if current.length > 0 || allow_empty then r.1 ++ [current] else r.1

/-- Body of the scan loop of `gdre::rsplit_multichar`: identical to
`split_multichar_loop` but walking from the end of the string (the argument list is
the reversed string), prepending characters to `current`. -/
def rsplit_multichar_loop (splitters : List Char) (allow_empty : Bool) (maxsplit : Int) :
    List Char → Str → List Str → List Str × Str × List Char
  | [], current, ret => (ret, current, [])
  | c :: cs, current, ret =>
    if splitters.contains c then
      if current.length > 0 || allow_empty then
        let ret' := ret ++ [current]
        if maxsplit > 0 && (ret'.length : Int) ≥ maxsplit - 1 then (ret', [], cs)
        else rsplit_multichar_loop splitters allow_empty maxsplit cs [] ret'
      else rsplit_multichar_loop splitters allow_empty maxsplit cs current ret
    else rsplit_multichar_loop splitters allow_empty maxsplit cs ([c] ++ current) ret

/-- `gdre::rsplit_multichar`: right-to-left variant of `split_multichar`; the
pieces are collected right-to-left and reversed at the end. -/
def rsplit_multichar (s : Str) (splitters : List Char) (allow_empty : Bool)
    (maxsplit : Int) : List Str :=
  let r := rsplit_multichar_loop splitters allow_empty maxsplit s.reverse [] []
  let current := r.2.2.reverse ++ r.2.1
  let ret := if current.length > 0 || allow_empty then r.1 ++ [current] else r.1
  ret.reverse

/-- The splitter-validation loop shared by `gdre::_split_multichar` and
`gdre::_rsplit_multichar`: builds the character set from the one-character splitter
strings, failing (`none`) as soon as a splitter longer than one character is seen
(`ERR_FAIL_V_MSG(Vector<String>(), ...)` in the source). -/
def build_splitter_chars (acc : List Char) : List Str → Option (List Char)
  | [] => some acc
  | sp :: rest =>
    if sp.length > 1 then none
    else build_splitter_chars
      (if acc.contains (sp.headD (Char.ofNat 0)) then acc
       else acc ++ [sp.headD (Char.ofNat 0)]) rest

/-- `gdre::_split_multichar`: the `Vector<String>`-splitters wrapper; rejects the
whole call (empty result) if any splitter has more than one character. -/
def split_multichar_vec (s : Str) (splitters : List Str) (allow_empty : Bool)
    (maxsplit : Int) : List Str :=
  match build_splitter_chars [] splitters with
  | none => []
  | some cs => split_multichar s cs allow_empty maxsplit

/-- `gdre::_rsplit_multichar`: the `Vector<String>`-splitters wrapper; rejects the
whole call (empty result) if any splitter has more than one character. -/
def rsplit_multichar_vec (s : Str) (splitters : List Str) (allow_empty : Bool)
    (maxsplit : Int) : List Str :=
  match build_splitter_chars [] splitters with
  | none => []
  | some cs => rsplit_multichar s cs allow_empty maxsplit

example : split_multichar "Dialog_Title".data ['_'] false 0
    = ["Dialog".data, "Title".data] := by decide

example : rsplit_multichar "a_b_c".data ['_'] false 0
    = ["a".data, "b".data, "c".data] := by decide

example : split_multichar_vec "a_b".data ["_x".data] false 0 = [] := by decide

/-! ## KeyWorker constants and state (`src/exporters/translation_exporter.cpp`) -/

/-- The `ALL_PUNCTUATION` character set, in source order.  Characters that are
awkward as Lean character literals are written via `Char.ofNat` by code point:
123 `lbrace`, 125 `rbrace`, 96 backtick, 39 apostrophe, 34 double quote. -/
def ALL_PUNCTUATION : List Char :=
  ['.', '!', '?', ',', ';', ':', '(', ')', '[', ']', Char.ofNat 123, Char.ofNat 125,
   '<', '>', '/', '\\', '|', Char.ofNat 96, '~', '@', '#', '$', '%', '^', '&', '*',
   '-', '_', '+', '=', Char.ofNat 39, Char.ofNat 34, '\n', '\t', ' ']

/-- `KeyWorker::MAX_FILT_RES_STRINGS`. -/
def MAX_FILT_RES_STRINGS : Nat := 8000

/-- `MISSING_KEY_PREFIX`, the sentinel-key leader. -/
def MISSING_KEY_LEADER : Str := "<!MissingKey:".data

/-- Godot `String::to_upper`, restricted to the ASCII case mapping (the engine's
Unicode case folding is abstracted; every claim exercises ASCII data only). -/
def to_upper (s : Str) : Str := s.map Char.toUpper

/-- Godot `String::to_lower`, ASCII case mapping (see `to_upper`). -/
def to_lower (s : Str) : Str := s.map Char.toLower

/-- Insertion-ordered set insert (Godot `HashSet::insert`). -/
def set_insert (l : List Str) (x : Str) : List Str :=
  if l.contains x then l else l ++ [x]

/-- The mutable fields of `struct KeyWorker` that the claims touch: the Key Table
(`key_to_message`, an insertion-ordered map), the admitted-key statistics, the
classification flags and the discovered punctuation set.  `punctuation_str`
mirrors `punctuation` in the source (same characters as one-byte strings), so a
single field models both. -/
structure KWState where
  key_to_message : List (Str × Str)
  current_keys_found : Nat
  keys_have_whitespace : Bool
  keys_are_all_upper : Bool
  keys_are_all_lower : Bool
  keys_are_all_ascii : Bool
  keys_that_are_all_upper : Nat
  keys_that_are_all_lower : Nat
  keys_that_are_all_ascii : Nat
  max_key_len : Nat
  punctuation : List Char
  current_stage_keys_found : List Str
deriving Repr, DecidableEq

/-- The `KeyWorker` field initializers: empty table, optimistic case/ASCII flags,
no whitespace seen, zero counters, empty punctuation set. -/
def initState : KWState :=
  ⟨[], 0, false, true, true, true, 0, 0, 0, 0, [], []⟩

/-- Whether the Key Table already has an entry for `key`
(`map_has(key_to_message, key)`). -/
def table_has_key (st : KWState) (key : Str) : Bool :=
  st.key_to_message.any fun p => p.1 == key

/-- `KeyWorker::_set_key_stuff`: the statistics update performed on every fresh
admission.  Each source `if`/`else` that conditionally writes one flag or counter
is rendered as the corresponding conditional field value (`if (!f && c) f = true`
becomes `if c then true else f`, etc.). -/
def set_key_stuff (st : KWState) (key : Str) : KWState :=
  { st with
    current_keys_found := st.current_keys_found + 1,
    keys_have_whitespace :=
      if string_has_whitespace key then true else st.keys_have_whitespace,
    keys_that_are_all_upper :=
      if to_upper key == key then st.keys_that_are_all_upper + 1
      else st.keys_that_are_all_upper,
    keys_are_all_upper :=
      if to_upper key == key then st.keys_are_all_upper else false,
    keys_that_are_all_lower :=
      if to_lower key == key then st.keys_that_are_all_lower + 1
      else st.keys_that_are_all_lower,
    keys_are_all_lower :=
      if to_lower key == key then st.keys_are_all_lower else false,
    keys_that_are_all_ascii :=
      if string_is_ascii key then st.keys_that_are_all_ascii + 1
      else st.keys_that_are_all_ascii,
    keys_are_all_ascii :=
      if string_is_ascii key then st.keys_are_all_ascii else false,
    current_stage_keys_found := set_insert st.current_stage_keys_found key,
    max_key_len := max st.max_key_len key.length,
    punctuation := get_chars_in_set key ALL_PUNCTUATION st.punctuation }

/-- `KeyWorker::_set_key` (the spec's `try_admit`): rejects the empty key, no-ops
on a key already present, otherwise updates the statistics and appends the entry
(Godot `HashMap` insertion preserves insertion order). -/
def set_key (st : KWState) (key msg : Str) : Bool × KWState :=
  if key.isEmpty then (false, st)
  else if table_has_key st key then (true, st)
  else
    (true,
      let st' := set_key_stuff st key
      { st' with key_to_message := st'.key_to_message ++ [(key, msg)] })

/-- `KeyWorker::try_key`: look the candidate up in the default translation; on a
non-empty message, admit the pair.  The oracle `lk` models
`OptimizedTranslationExtractor::get_message_str` (see `multipart_lookup`);
`lk k = []` means "no entry". -/
def try_key (lk : Str → Str) (st : KWState) (key : Str) : Bool × KWState :=
  if key.isEmpty then (false, st)
  else
    let msg := lk key
    if !msg.isEmpty then set_key st key msg else (false, st)

/-- `KeyWorker::combine_string`: concatenation of up to six parts, each appended
only when non-empty (`is_empty_or_null` guards in the source). -/
def combine_string (p1 p2 p3 p4 p5 p6 : Str) : Str :=
  let s := p1
  let s := if !p2.isEmpty then s ++ p2 else s
  let s := if !p3.isEmpty then s ++ p3 else s
  let s := if !p4.isEmpty then s ++ p4 else s
  let s := if !p5.isEmpty then s ++ p5 else s
  let s := if !p6.isEmpty then s ++ p6 else s
  s

/-- Modelled from the spec: `OptimizedTranslationExtractor::get_message_str` and
`get_message_multipart_str` live in `compat/optimized_translation_extractor.h`,
which is not under `src/`.  Per spec section 4.1 every probe uses the single lookup
primitive `message_for(key)` against the original key-to-message source, the
multipart form looking up the concatenation of its parts without allocating.  The
oracle `lk` returns the message for a key, `[]` meaning "no entry". -/
def multipart_lookup (lk : Str → Str) (p1 p2 p3 p4 p5 p6 : Str) : Str :=
  lk (p1 ++ p2 ++ p3 ++ p4 ++ p5 ++ p6)

/-- `KeyWorker::try_key_multipart`: on a non-empty multipart lookup, admit
`(combine_string(parts), msg)` and report success regardless of whether the
admission inserted (a racing duplicate still counts as success). -/
def try_key_multipart (lk : Str → Str) (st : KWState) (p1 p2 p3 p4 p5 p6 : Str) :
    Bool × KWState :=
  let msg := multipart_lookup lk p1 p2 p3 p4 p5 p6
  if !msg.isEmpty then
    (true, (set_key st (combine_string p1 p2 p3 p4 p5 p6) msg).2)
  else (false, st)

/-! ### Probe wrappers

`reg_successful_prefix` / `reg_successful_suffix` only run under `DEBUG_ENABLED`
and touch instrumentation sets no claim mentions; they are omitted.  The
punctuation loops iterate `punctuation_str`; the source iterates the live hash set
(insertion while iterating is unspecified in C++), the model iterates the snapshot
taken at loop entry. -/

/-- Punctuation-separator loop of `KeyWorker::try_key_suffix`. -/
def try_key_suffix_loop (lk : Str → Str) (pre sfx : Str) :
    List Char → KWState → Bool × KWState
  | [], st => (false, st)
  | p :: ps, st =>
    let r := try_key_multipart lk st pre [p] sfx [] [] []
    if r.1 then (true, r.2) else try_key_suffix_loop lk pre sfx ps r.2

/-- `KeyWorker::try_key_suffix`: bare concatenation first, then one discovered
punctuation character as separator. -/
def try_key_suffix (lk : Str → Str) (st : KWState) (pre sfx : Str) : Bool × KWState :=
  let r := try_key_multipart lk st pre sfx [] [] [] []
  if r.1 then (true, r.2)
  else try_key_suffix_loop lk pre sfx r.2.punctuation r.2

/-- Punctuation-separator loop of `KeyWorker::try_key_prefix` (`pfx` abbreviates
the source name here and in the related declarations below). -/
def try_key_pfx_loop (lk : Str → Str) (pre sfx : Str) :
    List Char → KWState → Bool × KWState
  | [], st => (false, st)
  | p :: ps, st =>
    let r := try_key_multipart lk st pre [p] sfx [] [] []
    if r.1 then (true, r.2) else try_key_pfx_loop lk pre sfx ps r.2

/-- `KeyWorker::try_key_prefix`: identical probe sequence to `try_key_suffix`
(the two differ only in the debug instrumentation they record). -/
def try_key_pfx (lk : Str → Str) (st : KWState) (pre sfx : Str) : Bool × KWState :=
  let r := try_key_multipart lk st pre sfx [] [] [] []
  if r.1 then (true, r.2)
  else try_key_pfx_loop lk pre sfx r.2.punctuation r.2

/-- Punctuation-separator loop of `KeyWorker::try_key_suffixes` (separator between
the two suffixes). -/
def try_key_suffixes_loop (lk : Str → Str) (pre s1 s2 : Str) :
    List Char → KWState → Bool × KWState
  | [], st => (false, st)
  | p :: ps, st =>
    let r := try_key_multipart lk st pre s1 [p] s2 [] []
    if r.1 then (true, r.2) else try_key_suffixes_loop lk pre s1 s2 ps r.2

/-- `KeyWorker::try_key_suffixes`: with an empty first suffix this is
`try_key_suffix(prefix, suffix2)`; otherwise bare `prefix+s1+s2` first, then a
punctuation separator between `s1` and `s2`. -/
def try_key_suffixes (lk : Str → Str) (st : KWState) (pre s1 s2 : Str) :
    Bool × KWState :=
  if s1.isEmpty then try_key_suffix lk st pre s2
  else
    let r := try_key_multipart lk st pre s1 s2 [] [] []
    if r.1 then (true, r.2)
    else try_key_suffixes_loop lk pre s1 s2 r.2.punctuation r.2

/-- Punctuation loop of `KeyWorker::try_key_prefix_suffix` (the same punctuation
character on both sides of the middle part). -/
def try_key_pfx_suffix_loop (lk : Str → Str) (pre mid sfx : Str) :
    List Char → KWState → Bool × KWState
  | [], st => (false, st)
  | p :: ps, st =>
    let r := try_key_multipart lk st pre [p] mid [p] sfx []
    if r.1 then (true, r.2) else try_key_pfx_suffix_loop lk pre mid sfx ps r.2

/-- `KeyWorker::try_key_prefix_suffix`: bare `prefix+key+suffix` first, then with a
punctuation separator on both sides of the middle part. -/
def try_key_pfx_suffix (lk : Str → Str) (st : KWState) (pre mid sfx : Str) :
    Bool × KWState :=
  let r := try_key_multipart lk st pre mid sfx [] [] []
  if r.1 then (true, r.2)
  else try_key_pfx_suffix_loop lk pre mid sfx r.2.punctuation r.2

/-! ### Numeric-suffix expansion (`cs_num`, `try_num_suffix`) -/

/-- `KeyWorker::cs_num`: decimal rendering of `num`, zero-padded according to
`zero_prefix_len` (`snprintf` format `"%0{w}lld"` with minimum width `w`
being `zero_prefix_len + 1` for `1..6`, `8` beyond, none for `0`). -/
def cs_num (num : Nat) (zero_pfx_len : Nat) : Str :=
  let digits := Nat.toDigits 10 num
  let width := if zero_pfx_len = 0 then 0 else if zero_pfx_len ≤ 6 then zero_pfx_len + 1 else 8
  List.replicate (width - digits.length) '0' ++ digits

/-- One numeric range probe of `KeyWorker::try_num_suffix`'s widening loop: probes
`res_s + suffix + cs_num(n)` for every `n` in the list, threading the state and
counting the successes (`numbers_found`). -/
def probe_range (lk : Str → Str) (res_s sfx : Str) (zero_pfx_len : Nat) :
    List Nat → KWState → KWState × Nat
  | [], st => (st, 0)
  | n :: ns, st =>
    let r := try_key_suffixes lk st res_s sfx (cs_num n zero_pfx_len)
    let rest := probe_range lk res_s sfx zero_pfx_len ns r.2
    (rest.1, (if r.1 then 1 else 0) + rest.2)

/-- The `while (found_most)` widening loop of `KeyWorker::try_num_suffix`: probes
`[min_num, max_num)`, and continues with `[max_num, 2*max_num)` exactly when
`numbers_found >= max_num - min_num - 1` (all but at most one of the range hit).
`fuel` bounds the number of iterations — the embedding's termination device; the
source loop terminates because the translation table is finite. -/
def num_widen_loop (lk : Str → Str) (res_s sfx : Str) (zero_pfx_len : Nat) :
    Nat → Nat → Nat → KWState → KWState
  | 0, _, _, st => st
  | fuel + 1, min_num, max_num, st =>
    let r := probe_range lk res_s sfx zero_pfx_len
      (List.range' min_num (max_num - min_num)) st
    if (r.2 : Int) ≥ (max_num : Int) - (min_num : Int) - 1 then
      num_widen_loop lk res_s sfx zero_pfx_len fuel max_num (max_num * 2) r.1
    else r.1

/-- `KeyWorker::try_num_suffix`: probe the literal suffix `"1"`; when the
magnitude hint is absent (`skip_magnitude_check = false`) detect the zero-padding
width via `"01"`, `"001"`, `"0001"`; then, if anything hit or the hint was
supplied, probe `"N"`, `"n"`, `"0"` and the adaptive numeric ranges
(`[0,10)` when the hint was authoritative, `[2,4)` exploratory). -/
def try_num_suffix (lk : Str → Str) (st : KWState) (res_s sfx : Str)
    (skip_magnitude_check : Bool) (fuel : Nat) : KWState :=
  let r1 := try_key_suffixes lk st res_s sfx "1".data
  let found_num := r1.1
  let r2 :=
    if !skip_magnitude_check then
      let a := try_key_suffixes lk r1.2 res_s sfx "01".data
      let zp := if a.1 then 1 else 0
      if !found_num && zp == 0 then
        let b := try_key_suffixes lk a.2 res_s sfx "001".data
        let zp := if b.1 then 2 else 0
        if zp == 0 then
          let c := try_key_suffixes lk b.2 res_s sfx "0001".data
          ((if c.1 then 3 else 0), c.2)
        else (zp, b.2)
      else (zp, a.2)
    else (0, r1.2)
  let zero_pfx_len := r2.1
  let st2 := r2.2
  if found_num || zero_pfx_len > 0 || skip_magnitude_check then
    let n1 := try_key_suffixes lk st2 res_s sfx "N".data
    let n2 := try_key_suffixes lk n1.2 res_s sfx "n".data
    let n3 := try_key_suffixes lk n2.2 res_s sfx "0".data
    let min_num := if skip_magnitude_check then 0 else 2
    let max_num := if skip_magnitude_check then 10 else 4
    num_widen_loop lk res_s sfx zero_pfx_len fuel min_num max_num n3.2
  else st2

/-! ### Reconciliation (`KeyWorker::pop_keys`) -/

/-- The sentinel placeholder key:
`MISSING_KEY_PREFIX + String(msg).split("\n")[0] + ">"`. -/
def sentinel_key (msg : Str) : Str :=
  MISSING_KEY_LEADER ++ msg.takeWhile (· ≠ '\n') ++ ">".data

/-- `HashMap` lookup (`key_to_message[matching_key]`): value of the first entry
with the given key. -/
def assoc_lookup (table : List (Str × Str)) (k : Str) : Option Str :=
  (table.find? fun p => p.1 == k).map Prod.snd

/-- Whether some Key Table entry's message equals `msg`. -/
def has_msg (table : List (Str × Str)) (msg : Str) : Bool :=
  table.any fun p => p.2 == msg

/-- The entry-search loop of `pop_keys` for one message: walk the table in
iteration (= insertion) order; on a matching value record the key as
`matching_key`; `break` with success at the first matching entry whose key is not
yet in the output.  Returns `(found key, last matching_key seen)`. -/
def pop_search (keys : List Str) (msg : Str) : List (Str × Str) → Option Str × Option Str
  | [] => (none, none)
  | e :: rest =>
    if e.2 == msg then
      if keys.contains e.1 then
        let r := pop_search keys msg rest
        (r.1, some (r.2.getD e.1))
      else (some e.1, some e.1)
    else pop_search keys msg rest

/-- One iteration of the `pop_keys` message loop: returns the emitted key, whether
`missing_keys` was incremented, and whether the data-inconsistency `WARN_PRINT`
fired (the branch where the matching key's stored message differs from `msg`;
on that branch control falls through to the sentinel emission). -/
def pop_step (table : List (Str × Str)) (keys : List Str) (msg : Str) :
    Str × Bool × Bool :=
  match pop_search keys msg table with
  | (some k, _) => (k, false, false)
  | (none, some matching_key) =>
    let matching_message := (assoc_lookup table matching_key).getD []
    if msg ≠ matching_message then (sentinel_key msg, true, true)
    else (matching_key, false, false)
  | (none, none) => (sentinel_key msg, true, false)

/-- Result of `pop_keys`: the emitted key sequence, the `missing_keys` counter and
the messages for which the data-inconsistency warning fired. -/
structure PopResult where
  keys : List Str
  missing : Nat
  warned : List Str
deriving Repr, DecidableEq

/-- The message loop of `pop_keys`. -/
def pop_keys_go (table : List (Str × Str)) :
    List Str → List Str → Nat → List Str → PopResult
  | [], keys, missing, warned => ⟨keys, missing, warned⟩
  | msg :: rest, keys, missing, warned =>
    let r := pop_step table keys msg
    pop_keys_go table rest (keys ++ [r.1])
      (missing + if r.2.1 then 1 else 0)
      (warned ++ if r.2.2 then [msg] else [])

/-- `KeyWorker::pop_keys`: reconcile the Key Table against the ordered message
sequence, starting from a cleared output vector and a zero missing counter. -/
def pop_keys (table : List (Str × Str)) (msgs : List Str) : PopResult :=
  pop_keys_go table msgs [] 0 []

/-- The per-occurrence emitted-key sequence of `pop_keys`, carrying the growing
output vector (used to state per-index facts). -/
def emit_list (table : List (Str × Str)) (keys : List Str) : List Str → List Str
  | [] => []
  | msg :: rest =>
    let k := (pop_step table keys msg).1
    k :: emit_list table (keys ++ [k]) rest

/-! ### Stage-3 flag force-set (`KeyWorker::run`, lines 1185-1199) -/

/-- The force-lock block of stage 3.  The source computes
`keys_that_are_all_upper / key_to_message.size() > 0.9` where the division is
`size_t` integer division, so the comparison succeeds exactly when the integer
quotient is at least 1; the model writes that quotient test directly.  The
upper/lower tests form an `if`/`else if` chain; the ASCII test is independent. -/
def force_set_flags (pool_size table_size : Nat)
    (upper_count lower_count ascii_count : Nat)
    (all_upper all_lower all_ascii : Bool) : Bool × Bool × Bool :=
  if pool_size > MAX_FILT_RES_STRINGS && (!all_upper || !all_lower || !all_ascii) then
    let up_hit := !all_upper && upper_count / table_size ≥ 1
    let all_upper' := if up_hit then true else all_upper
    let all_lower' :=
      if !up_hit && (!all_lower && lower_count / table_size ≥ 1) then true else all_lower
    let all_ascii' :=
      if !all_ascii && ascii_count / table_size ≥ 1 then true else all_ascii
    (all_upper', all_lower', all_ascii')
  else (all_upper, all_lower, all_ascii)

/-! ### Affix discovery (`KeyWorker::find_common_prefixes_and_suffixes`)

The source accumulates two `HashMap<String, int>` frequency tables (one for
left-anchored cumulative parts, one for right-anchored), retains fragments with
count at or above the threshold, and sorts by descending length.  The maps are
modelled as insertion-ordered association lists; since each map only ever receives
its own stream of `inc_counts` calls, the per-string interleaving of the source is
equivalent to folding each map over the concatenated fragment stream. -/

/-- Update-or-append step of `inc_counts` (Godot `HashMap` updates in place,
preserving insertion order, and appends new keys). -/
def inc_counts_go : List (Str × Nat) → Str → List (Str × Nat)
  | [], part => [(part, 1)]
  | e :: rest, part =>
    if e.1 == part then (e.1, e.2 + 1) :: rest
    else e :: inc_counts_go rest part

/-- The `inc_counts` lambda: ignore empty fragments, else increment the
fragment's count. -/
def inc_counts (counts : List (Str × Nat)) (part : Str) : List (Str × Nat) :=
  if part.isEmpty then counts else inc_counts_go counts part

/-- The cumulative left-anchored fragments of one string, after the first part:
each step re-includes the punctuation run at the boundary
(`res_s` characters from index `prefix.length()` while in the punctuation set)
and then appends the next part. -/
def pfx_frags_go (punct : List Char) (res_s : Str) (acc : Str) : List Str → List Str
  | [] => []
  | part :: rest =>
    let acc' := acc ++ ((res_s.drop acc.length).takeWhile fun c => punct.contains c) ++ part
    acc' :: pfx_frags_go punct res_s acc' rest

/-- All left-anchored cumulative fragments of one string: the first
punctuation-delimited part, then the cumulative parts over the interior parts
(indices `1 .. parts.size() - 2` in the source loop). -/
def pfx_frags (punct : List Char) (res_s : Str) : List Str :=
  match split_multichar res_s punct false 0 with
  | [] => []
  | p0 :: rest => p0 :: pfx_frags_go punct res_s p0 rest.dropLast

/-- The backwards punctuation run scanned before prepending an interior part to
the growing suffix: characters of `res_s` at indices `base, base-1, ..., 1`
(index 0 is never consumed: the loop guard is `part_end_idx > 0`) while in the
punctuation set, returned in increasing index order. -/
def back_punct_run (punct : List Char) (res_s : Str) (base : Nat) : Str :=
  ((((res_s.take (base + 1)).drop 1).reverse.takeWhile fun c => punct.contains c)).reverse

/-- The trailing digit/punctuation stripping loop of the suffix pass, walking the
reversed suffix; returns the stripped suffix (reversed back by the caller) and
`end_pad`, the number of stripped characters. -/
def strip_trailing_go (punct : List Char) : List Char → Nat → List Char × Nat
  | [], pad => ([], pad)
  | c :: cs, pad =>
    if c.isDigit || punct.contains c then strip_trailing_go punct cs (pad + 1)
    else (c :: cs, pad)

/-- Strip the trailing run of digits (and punctuation) from a suffix, counting the
stripped characters (`end_pad`). -/
def strip_trailing (punct : List Char) (s : Str) : Str × Nat :=
  let r := strip_trailing_go punct s.reverse 0
  (r.1.reverse, r.2)

/-- The right-anchored cumulative fragments built over the interior parts
(source loop `for (int i = suffix_parts.size() - 2; i > 0; i--)`): each step
prepends the punctuation run scanned backwards from index
`res_s.length() - (suffix.length() + end_pad) - 1` and then the part. -/
def sfx_frags_go (punct : List Char) (res_s : Str) (end_pad : Nat) (acc : Str) :
    List Str → List Str
  | [] => []
  | part :: rest =>
    let base := res_s.length - (acc.length + end_pad) - 1
    let acc' := part ++ back_punct_run punct res_s base ++ acc
    acc' :: sfx_frags_go punct res_s end_pad acc' rest

/-- All right-anchored cumulative fragments of one string: the last
punctuation-delimited part; its digit-stripped variant when it ends in a digit
(skipped by `inc_counts` when the strip empties it); then the cumulative interior
fragments, which continue from the stripped suffix and its `end_pad`. -/
def sfx_frags (punct : List Char) (res_s : Str) : List Str :=
  match (split_multichar res_s punct false 0).reverse with
  | [] => []
  | s0 :: rev_rest =>
    let middles := rev_rest.dropLast
    match s0.reverse with
    | [] => []
    | c :: _ =>
      if c.isDigit then
        let r := strip_trailing punct s0
        s0 :: ((if r.1.isEmpty then [] else [r.1]) ++ sfx_frags_go punct res_s r.2 r.1 middles)
      else
        s0 :: sfx_frags_go punct res_s 0 s0 middles

/-- The concatenated left-anchored fragment stream of a corpus (empty strings are
skipped by the source loop's `continue`). -/
def all_pfx_frags (punct : List Char) (corpus : List Str) : List Str :=
  (corpus.map fun s => if s.isEmpty then [] else pfx_frags punct s).flatten

/-- The concatenated right-anchored fragment stream of a corpus. -/
def all_sfx_frags (punct : List Char) (corpus : List Str) : List Str :=
  (corpus.map fun s => if s.isEmpty then [] else sfx_frags punct s).flatten

/-- The retention fold: push every counted fragment whose count reaches the
threshold and which is not already in the affix list. -/
def retain_fold (counts : List (Str × Nat)) (threshold : Nat) (init : List Str) :
    List Str :=
  counts.foldl
    (fun acc e => if threshold ≤ e.2 && !acc.contains e.1 then acc ++ [e.1] else acc)
    init

/-- Insert a string into a length-descending sorted list (model of
`sort_custom<StringLengthCompare<true>>`; the source's introsort is unstable, so
only the ordering by length — not the order of equal-length strings — is
specified behaviour). -/
def insert_by_len (x : Str) : List Str → List Str
  | [] => [x]
  | y :: ys => if y.length < x.length then x :: y :: ys else y :: insert_by_len x ys

/-- Sort a string list by descending length. -/
def sort_len_desc (l : List Str) : List Str :=
  l.foldr insert_by_len []

/-- `KeyWorker::find_common_prefixes_and_suffixes` for empty initial affix lists
(the `clear = true` / fresh case): count the cumulative fragments of every corpus
string, retain those with count at or above `count_threshold`, and sort by
descending length. -/
def find_common_affixes (punct : List Char) (corpus : List Str)
    (count_threshold : Nat) : List Str × List Str :=
  let pfx_counts := (all_pfx_frags punct corpus).foldl inc_counts []
  let sfx_counts := (all_sfx_frags punct corpus).foldl inc_counts []
  (sort_len_desc (retain_fold pfx_counts count_threshold []),
   sort_len_desc (retain_fold sfx_counts count_threshold []))

/-! ## Theorems -/

/-! ### C10: multi-character splitters are rejected wholesale -/

lemma build_splitter_chars_none : ∀ (splitters : List Str) (acc : List Char),
    (∃ sp ∈ splitters, 1 < sp.length) → build_splitter_chars acc splitters = none
  | [], _, h => by simp at h
  | sp :: rest, acc, h => by
    unfold build_splitter_chars
    by_cases hsp : sp.length > 1
    · simp [hsp]
    · obtain ⟨x, hx, hlen⟩ := h
      rcases List.mem_cons.mp hx with rfl | hx
      · exact absurd hlen hsp
      · simp only [hsp, if_false]
        exact build_splitter_chars_none rest _ ⟨x, hx, hlen⟩

/-- C10: `gdre::_split_multichar` and `gdre::_rsplit_multichar` return the empty
vector for every input whenever any splitter has more than one character,
regardless of the other arguments. -/
theorem split_multichar_rejects_long_splitters (s : Str) (splitters : List Str)
    (allow_empty : Bool) (maxsplit : Int)
    (h : ∃ sp ∈ splitters, 1 < sp.length) :
    split_multichar_vec s splitters allow_empty maxsplit = [] ∧
    rsplit_multichar_vec s splitters allow_empty maxsplit = [] := by
  rw [split_multichar_vec, rsplit_multichar_vec, build_splitter_chars_none splitters [] h]
  exact ⟨rfl, rfl⟩

/-- Witness for C10 at a concrete input. -/
theorem split_multichar_rejects_long_splitters_witness :
    split_multichar_vec "a_b".data ["ab".data] true 0 = [] ∧
    rsplit_multichar_vec "a_b".data ["ab".data] true 0 = [] :=
  split_multichar_rejects_long_splitters "a_b".data ["ab".data] true 0
    ⟨"ab".data, by decide, by decide⟩

/-! ### C7: the stage-3 force-set rule (integer-division bug) -/

/-- C7 (code bug): with a filtered pool of 8001 strings and 95 of 100 admitted
keys all-upper (well above 90%), the flag is *not* force-set, because
`keys_that_are_all_upper / key_to_message.size() > 0.9` performs `size_t`
integer division (`95 / 100 = 0`); the flag is set only when the counter reaches
the full table size (the comparison `quotient > 0.9` holds only at 100%),
contradicting the claim and the source's own comment
"check if upper case strings are >90% of the strings". -/
theorem force_set_flags_integer_division :
    force_set_flags 8001 100 95 0 0 false true true = (false, true, true) ∧
    100 * 9 < 95 * 10 ∧
    force_set_flags 8001 100 100 0 0 false true true = (true, true, true) := by
  exact ⟨by decide, by decide, by decide⟩

/-! ### C3: the Key Table admission contract (`_set_key`) -/

lemma table_has_key_iff (st : KWState) (key : Str) :
    table_has_key st key = true ↔ key ∈ st.key_to_message.map Prod.fst := by
  simp [table_has_key, List.any_eq_true, List.mem_map]

/-- On the fresh-key path, `_set_key` appends the new entry. -/
lemma set_key_fresh_table (st : KWState) (key msg : Str)
    (h1 : ¬key.isEmpty = true) (h2 : ¬table_has_key st key = true) :
    (set_key st key msg).2.key_to_message = st.key_to_message ++ [(key, msg)] := by
  simp [set_key, h1, h2, set_key_stuff]

/-- C3: the admission contract of `KeyWorker::_set_key`: empty keys are rejected
without mutation; a present key returns success with no mutation of the table or
any statistic; a fresh key is appended together with the statistics update
(classification flags, counters and punctuation set shown for the upper-case flag
and the punctuation field); existing entries are never overwritten (first writer
wins) and key uniqueness is preserved. -/
theorem set_key_contract (st : KWState) (key msg : Str) :
    (key = [] → set_key st key msg = (false, st)) ∧
    (key ≠ [] → table_has_key st key = true → set_key st key msg = (true, st)) ∧
    (key ≠ [] → table_has_key st key = false →
      (set_key st key msg).1 = true ∧
      (set_key st key msg).2.key_to_message = st.key_to_message ++ [(key, msg)] ∧
      (set_key st key msg).2.punctuation =
        get_chars_in_set key ALL_PUNCTUATION st.punctuation ∧
      (set_key st key msg).2.keys_are_all_upper =
        (if to_upper key == key then st.keys_are_all_upper else false) ∧
      (set_key st key msg).2.keys_that_are_all_upper =
        (if to_upper key == key then st.keys_that_are_all_upper + 1
         else st.keys_that_are_all_upper)) ∧
    (∀ k m, (k, m) ∈ st.key_to_message → (k, m) ∈ (set_key st key msg).2.key_to_message) ∧
    ((st.key_to_message.map Prod.fst).Nodup →
      ((set_key st key msg).2.key_to_message.map Prod.fst).Nodup) := by
  refine ⟨?_, ?_, ?_, ?_, ?_⟩
  · intro h
    subst h
    simp [set_key]
  · intro hk hh
    simp [set_key, List.isEmpty_iff, hk, hh]
  · intro hk hh
    simp [set_key, List.isEmpty_iff, hk, hh, set_key_stuff]
  · intro k m hm
    by_cases h1 : key.isEmpty
    · simpa [set_key, h1] using hm
    · by_cases h2 : table_has_key st key
      · simpa [set_key, h1, h2] using hm
      · rw [set_key_fresh_table st key msg h1 h2]
        exact List.mem_append.mpr (Or.inl hm)
  · intro hnd
    by_cases h1 : key.isEmpty
    · simpa [set_key, h1] using hnd
    · by_cases h2 : table_has_key st key
      · simpa [set_key, h1, h2] using hnd
      · have hknot : key ∉ st.key_to_message.map Prod.fst := by
          intro hmem
          exact absurd ((table_has_key_iff st key).mpr hmem) h2
        rw [set_key_fresh_table st key msg h1 h2, List.map_append]
        refine List.Nodup.append hnd (by simp) ?_
        intro a ha hb
        simp at hb
        exact hknot (hb ▸ ha)

/-- Witness for C3 at concrete inputs: a fresh key is admitted and appended. -/
theorem set_key_contract_witness :
    (set_key initState "K".data "V".data).1 = true ∧
    (set_key initState "K".data "V".data).2.key_to_message
      = initState.key_to_message ++ [("K".data, "V".data)] :=
  ⟨((set_key_contract initState "K".data "V".data).2.2.1 (by decide) (by decide)).1,
   ((set_key_contract initState "K".data "V".data).2.2.1 (by decide) (by decide)).2.1⟩

/-! ### C2: every admitted pair matches the lookup oracle and is non-empty -/

/-- The Key Table invariant of the spec: every entry's message is exactly what the
default-translation oracle returns for its key, and is non-empty. -/
def table_inv (lk : Str → Str) (st : KWState) : Prop :=
  ∀ p ∈ st.key_to_message, lk p.1 = p.2 ∧ p.2 ≠ []

lemma table_inv_of_table_eq {lk : Str → Str} {st st' : KWState}
    (h : st'.key_to_message = st.key_to_message) (hi : table_inv lk st) :
    table_inv lk st' := fun p hp => hi p (h ▸ hp)

lemma combine_string_eq (p1 p2 p3 p4 p5 p6 : Str) :
    combine_string p1 p2 p3 p4 p5 p6 = p1 ++ p2 ++ p3 ++ p4 ++ p5 ++ p6 := by
  simp only [combine_string]
  split_ifs <;> simp_all [List.isEmpty_iff]

lemma set_key_inv {lk : Str → Str} {st : KWState} {key msg : Str}
    (h : table_inv lk st) (hk : lk key = msg) (hm : msg ≠ []) :
    table_inv lk (set_key st key msg).2 := by
  by_cases h1 : key.isEmpty
  · exact table_inv_of_table_eq (by simp [set_key, h1]) h
  · by_cases h2 : table_has_key st key
    · exact table_inv_of_table_eq (by simp [set_key, h1, h2]) h
    · intro p hp
      rw [set_key_fresh_table st key msg h1 h2] at hp
      rcases List.mem_append.mp hp with hp | hp
      · exact h p hp
      · simp at hp
        rw [hp]
        exact ⟨hk, hm⟩

lemma try_key_inv (lk : Str → Str) (st : KWState) (key : Str)
    (h : table_inv lk st) : table_inv lk (try_key lk st key).2 := by
  simp only [try_key]
  split_ifs with h1 h2
  · exact h
  · exact set_key_inv h rfl (by simpa [List.isEmpty_iff] using h2)
  · exact h

lemma try_key_multipart_inv (lk : Str → Str) (st : KWState) (p1 p2 p3 p4 p5 p6 : Str)
    (h : table_inv lk st) :
    table_inv lk (try_key_multipart lk st p1 p2 p3 p4 p5 p6).2 := by
  simp only [try_key_multipart]
  split_ifs with h1
  · refine set_key_inv h ?_ (by simpa [multipart_lookup, List.isEmpty_iff] using h1)
    rw [combine_string_eq]
    rfl
  · exact h

lemma try_key_suffix_loop_inv (lk : Str → Str) (pre sfx : Str) :
    ∀ (ps : List Char) (st : KWState), table_inv lk st →
      table_inv lk (try_key_suffix_loop lk pre sfx ps st).2
  | [], _, h => h
  | p :: ps, st, h => by
    have h2 := try_key_multipart_inv lk st pre [p] sfx [] [] [] h
    simp only [try_key_suffix_loop]
    cases hr : (try_key_multipart lk st pre [p] sfx [] [] []).1
    · rw [if_neg Bool.false_ne_true]
      exact try_key_suffix_loop_inv lk pre sfx ps _ h2
    · rw [if_pos rfl]
      exact h2

lemma try_key_suffix_inv (lk : Str → Str) (st : KWState) (pre sfx : Str)
    (h : table_inv lk st) : table_inv lk (try_key_suffix lk st pre sfx).2 := by
  have h2 := try_key_multipart_inv lk st pre sfx [] [] [] [] h
  simp only [try_key_suffix]
  cases hr : (try_key_multipart lk st pre sfx [] [] [] []).1
  · rw [if_neg Bool.false_ne_true]
    exact try_key_suffix_loop_inv lk pre sfx _ _ h2
  · rw [if_pos rfl]
    exact h2

lemma try_key_pfx_loop_inv (lk : Str → Str) (pre sfx : Str) :
    ∀ (ps : List Char) (st : KWState), table_inv lk st →
      table_inv lk (try_key_pfx_loop lk pre sfx ps st).2
  | [], _, h => h
  | p :: ps, st, h => by
    have h2 := try_key_multipart_inv lk st pre [p] sfx [] [] [] h
    simp only [try_key_pfx_loop]
    cases hr : (try_key_multipart lk st pre [p] sfx [] [] []).1
    · rw [if_neg Bool.false_ne_true]
      exact try_key_pfx_loop_inv lk pre sfx ps _ h2
    · rw [if_pos rfl]
      exact h2

lemma try_key_pfx_inv (lk : Str → Str) (st : KWState) (pre sfx : Str)
    (h : table_inv lk st) : table_inv lk (try_key_pfx lk st pre sfx).2 := by
  have h2 := try_key_multipart_inv lk st pre sfx [] [] [] [] h
  simp only [try_key_pfx]
  cases hr : (try_key_multipart lk st pre sfx [] [] [] []).1
  · rw [if_neg Bool.false_ne_true]
    exact try_key_pfx_loop_inv lk pre sfx _ _ h2
  · rw [if_pos rfl]
    exact h2

lemma try_key_suffixes_loop_inv (lk : Str → Str) (pre s1 s2 : Str) :
    ∀ (ps : List Char) (st : KWState), table_inv lk st →
      table_inv lk (try_key_suffixes_loop lk pre s1 s2 ps st).2
  | [], _, h => h
  | p :: ps, st, h => by
    have h2 := try_key_multipart_inv lk st pre s1 [p] s2 [] [] h
    simp only [try_key_suffixes_loop]
    cases hr : (try_key_multipart lk st pre s1 [p] s2 [] []).1
    · rw [if_neg Bool.false_ne_true]
      exact try_key_suffixes_loop_inv lk pre s1 s2 ps _ h2
    · rw [if_pos rfl]
      exact h2

lemma try_key_suffixes_inv (lk : Str → Str) (st : KWState) (pre s1 s2 : Str)
    (h : table_inv lk st) : table_inv lk (try_key_suffixes lk st pre s1 s2).2 := by
  simp only [try_key_suffixes]
  by_cases h1 : s1.isEmpty
  · rw [if_pos h1]
    exact try_key_suffix_inv lk st pre s2 h
  · rw [if_neg h1]
    have h2 := try_key_multipart_inv lk st pre s1 s2 [] [] [] h
    cases hr : (try_key_multipart lk st pre s1 s2 [] [] []).1
    · rw [if_neg Bool.false_ne_true]
      exact try_key_suffixes_loop_inv lk pre s1 s2 _ _ h2
    · rw [if_pos rfl]
      exact h2

lemma try_key_pfx_suffix_loop_inv (lk : Str → Str) (pre mid sfx : Str) :
    ∀ (ps : List Char) (st : KWState), table_inv lk st →
      table_inv lk (try_key_pfx_suffix_loop lk pre mid sfx ps st).2
  | [], _, h => h
  | p :: ps, st, h => by
    have h2 := try_key_multipart_inv lk st pre [p] mid [p] sfx [] h
    simp only [try_key_pfx_suffix_loop]
    cases hr : (try_key_multipart lk st pre [p] mid [p] sfx []).1
    · rw [if_neg Bool.false_ne_true]
      exact try_key_pfx_suffix_loop_inv lk pre mid sfx ps _ h2
    · rw [if_pos rfl]
      exact h2

lemma try_key_pfx_suffix_inv (lk : Str → Str) (st : KWState) (pre mid sfx : Str)
    (h : table_inv lk st) : table_inv lk (try_key_pfx_suffix lk st pre mid sfx).2 := by
  have h2 := try_key_multipart_inv lk st pre mid sfx [] [] [] h
  simp only [try_key_pfx_suffix]
  cases hr : (try_key_multipart lk st pre mid sfx [] [] []).1
  · rw [if_neg Bool.false_ne_true]
    exact try_key_pfx_suffix_loop_inv lk pre mid sfx _ _ h2
  · rw [if_pos rfl]
    exact h2

/-- C2: the Key Table invariant — every entry `(key, message)` satisfies
`lookup(key) = message` with `message` non-empty — is preserved by every probe
path: `try_key`, `try_key_multipart`, and all of their wrappers
(`try_key_suffix`, `try_key_prefix`, `try_key_suffixes`,
`try_key_prefix_suffix`).  No probe can admit a mismatching or empty-message
pair. -/
theorem probe_admission_invariant (lk : Str → Str) (st : KWState)
    (key pre sfx s1 s2 mid p1 p2 p3 p4 p5 p6 : Str)
    (h : table_inv lk st) :
    table_inv lk (try_key lk st key).2 ∧
    table_inv lk (try_key_multipart lk st p1 p2 p3 p4 p5 p6).2 ∧
    table_inv lk (try_key_suffix lk st pre sfx).2 ∧
    table_inv lk (try_key_pfx lk st pre sfx).2 ∧
    table_inv lk (try_key_suffixes lk st pre s1 s2).2 ∧
    table_inv lk (try_key_pfx_suffix lk st pre mid sfx).2 :=
  ⟨try_key_inv lk st key h,
   try_key_multipart_inv lk st p1 p2 p3 p4 p5 p6 h,
   try_key_suffix_inv lk st pre sfx h,
   try_key_pfx_inv lk st pre sfx h,
   try_key_suffixes_inv lk st pre s1 s2 h,
   try_key_pfx_suffix_inv lk st pre mid sfx h⟩

/-- The witness oracle for C2: exactly one key resolves. -/
def lkW : Str → Str := fun k => if k == "K".data then "V".data else []

/-- Witness for C2: starting from the empty table (trivially satisfying the
invariant), a successful `try_key` probe leaves the invariant intact. -/
theorem probe_admission_invariant_witness :
    table_inv lkW (try_key lkW initState "K".data).2 :=
  (probe_admission_invariant lkW initState "K".data [] [] [] [] [] [] [] [] [] [] []
    (fun p hp => absurd hp (List.not_mem_nil p))).1

/-! ### C1 / C4: reconciliation (`pop_keys`) -/

lemma pop_search_snd_none (keys : List Str) (msg : Str) : ∀ (table : List (Str × Str)),
    (pop_search keys msg table).2 = none ↔ ∀ p ∈ table, p.2 ≠ msg
  | [] => by simp [pop_search]
  | e :: rest => by
    simp only [pop_search]
    by_cases he : e.2 == msg
    · have hem : e.2 = msg := by simpa using he
      rw [if_pos he]
      by_cases hc : keys.contains e.1
      · rw [if_pos hc]
        simp only [Option.some_ne_none]
        constructor
        · intro h
          exact absurd h (by simp)
        · intro h
          exact absurd hem (h e (List.mem_cons_self e rest))
      · rw [if_neg hc]
        simp only [Option.some_ne_none]
        constructor
        · intro h
          exact absurd h (by simp)
        · intro h
          exact absurd hem (h e (List.mem_cons_self e rest))
    · have hem : e.2 ≠ msg := by simpa using he
      rw [if_neg (by simpa using he)]
      rw [pop_search_snd_none keys msg rest]
      constructor
      · intro h p hp
        rcases List.mem_cons.mp hp with rfl | hp
        · exact hem
        · exact h p hp
      · intro h p hp
        exact h p (List.mem_cons_of_mem e hp)

lemma pop_search_snd_mem (keys : List Str) (msg : Str) : ∀ (table : List (Str × Str)) (mk : Str),
    (pop_search keys msg table).2 = some mk → (mk, msg) ∈ table
  | [], mk => by simp [pop_search]
  | e :: rest, mk => by
    simp only [pop_search]
    by_cases he : e.2 == msg
    · have hem : e.2 = msg := by simpa using he
      rw [if_pos he]
      by_cases hc : keys.contains e.1
      · rw [if_pos hc]
        intro h
        simp only at h
        cases hrec : (pop_search keys msg rest).2 with
        | none =>
          rw [hrec] at h
          simp at h
          refine List.mem_cons.mpr (Or.inl ?_)
          rw [← h, ← hem]
        | some m =>
          rw [hrec] at h
          simp at h
          exact List.mem_cons_of_mem e (h ▸ pop_search_snd_mem keys msg rest m hrec)
      · rw [if_neg hc]
        intro h
        simp at h
        refine List.mem_cons.mpr (Or.inl ?_)
        rw [← h, ← hem]
    · rw [if_neg (by simpa using he)]
      intro h
      exact List.mem_cons_of_mem e (pop_search_snd_mem keys msg rest mk h)

lemma pop_search_fst_mem (keys : List Str) (msg : Str) : ∀ (table : List (Str × Str)) (k : Str),
    (pop_search keys msg table).1 = some k → (k, msg) ∈ table
  | [], k => by simp [pop_search]
  | e :: rest, k => by
    simp only [pop_search]
    by_cases he : e.2 == msg
    · have hem : e.2 = msg := by simpa using he
      rw [if_pos he]
      by_cases hc : keys.contains e.1
      · rw [if_pos hc]
        intro h
        simp only at h
        exact List.mem_cons_of_mem e (pop_search_fst_mem keys msg rest k h)
      · rw [if_neg hc]
        intro h
        simp at h
        refine List.mem_cons.mpr (Or.inl ?_)
        rw [← h, ← hem]
    · rw [if_neg (by simpa using he)]
      intro h
      exact List.mem_cons_of_mem e (pop_search_fst_mem keys msg rest k h)

lemma assoc_lookup_of_mem_nodup : ∀ {table : List (Str × Str)} {k v : Str},
    (table.map Prod.fst).Nodup → (k, v) ∈ table → assoc_lookup table k = some v := by
  intro table
  induction table with
  | nil => intro k v _ h; simp at h
  | cons e rest ih =>
    intro k v hnd hm
    rcases List.mem_cons.mp hm with he | hm
    · rw [← he]
      simp [assoc_lookup]
    · have hnd' : e.1 ∉ rest.map Prod.fst ∧ (rest.map Prod.fst).Nodup := by
        rw [List.map_cons, List.nodup_cons] at hnd
        exact hnd
      have hk : k ∈ rest.map Prod.fst := List.mem_map.mpr ⟨(k, v), hm, rfl⟩
      have hne : e.1 ≠ k := fun heq => hnd'.1 (heq ▸ hk)
      simp only [assoc_lookup, List.find?]
      rw [show (e.1 == k) = false from beq_eq_false_iff_ne.mpr hne]
      exact ih hnd'.2 hm

lemma has_msg_false_iff (table : List (Str × Str)) (msg : Str) :
    has_msg table msg = false ↔ ∀ p ∈ table, p.2 ≠ msg := by
  simp [has_msg, List.any_eq_false]

/-- Under key uniqueness the data-inconsistency warning can never fire: the
matching key's stored message always equals the target message. -/
lemma pop_step_no_warn {table : List (Str × Str)}
    (hnd : (table.map Prod.fst).Nodup) (keys : List Str) (msg : Str) :
    (pop_step table keys msg).2.2 = false := by
  unfold pop_step
  cases hs : pop_search keys msg table with
  | mk f m =>
    cases f with
    | some k => simp
    | none =>
      cases m with
      | none => simp
      | some mk =>
        have hmem : (mk, msg) ∈ table :=
          pop_search_snd_mem keys msg table mk (by rw [hs])
        have hl : assoc_lookup table mk = some msg := assoc_lookup_of_mem_nodup hnd hmem
        simp [hl]

lemma pop_step_of_not_has {table : List (Str × Str)} (keys : List Str) (msg : Str)
    (h : has_msg table msg = false) :
    pop_step table keys msg = (sentinel_key msg, true, false) := by
  have hnone : pop_search keys msg table = (none, none) := by
    have h2 := (pop_search_snd_none keys msg table).mpr ((has_msg_false_iff table msg).mp h)
    cases hs : pop_search keys msg table with
    | mk f m =>
      rw [hs] at h2
      simp only at h2
      subst h2
      cases f with
      | none => rfl
      | some k =>
        have := pop_search_fst_mem keys msg table k (by rw [hs])
        exact absurd rfl (((has_msg_false_iff table msg).mp h) _ this)
  unfold pop_step
  rw [hnone]

lemma pop_step_of_has {table : List (Str × Str)}
    (hnd : (table.map Prod.fst).Nodup) (keys : List Str) (msg : Str)
    (h : has_msg table msg = true) :
    (pop_step table keys msg).2.1 = false ∧
    ((pop_step table keys msg).1, msg) ∈ table := by
  have hsome : (pop_search keys msg table).2 ≠ none := by
    intro hn
    have := (pop_search_snd_none keys msg table).mp hn
    simp only [has_msg, List.any_eq_true] at h
    obtain ⟨p, hp, hpe⟩ := h
    exact absurd (by simpa using hpe) (this p hp)
  unfold pop_step
  cases hs : pop_search keys msg table with
  | mk f m =>
    cases f with
    | some k =>
      constructor
      · simp
      · simpa using pop_search_fst_mem keys msg table k (by rw [hs])
    | none =>
      cases m with
      | none => exact absurd (by rw [hs]) hsome
      | some mk =>
        have hmem : (mk, msg) ∈ table :=
          pop_search_snd_mem keys msg table mk (by rw [hs])
        have hl : assoc_lookup table mk = some msg := assoc_lookup_of_mem_nodup hnd hmem
        constructor
        · simp [hl]
        · simpa [hl] using hmem

lemma emit_list_length (table : List (Str × Str)) :
    ∀ (msgs keys : List Str), (emit_list table keys msgs).length = msgs.length
  | [], _ => rfl
  | _ :: rest, keys => by
    simp only [emit_list, List.length_cons]
    rw [emit_list_length table rest]

lemma emit_list_get {table : List (Str × Str)} (hnd : (table.map Prod.fst).Nodup) :
    ∀ (msgs keys : List Str) (i : Nat) (hi : i < msgs.length),
      (has_msg table msgs[i] = false →
        (emit_list table keys msgs)[i]? = some (sentinel_key msgs[i])) ∧
      (has_msg table msgs[i] = true →
        ∃ k, (emit_list table keys msgs)[i]? = some k ∧ (k, msgs[i]) ∈ table)
  | [], _, i, hi => by simp at hi
  | msg :: rest, keys, 0, hi => by
    constructor
    · intro h
      simp only [emit_list, List.getElem?_cons_zero, Option.some_inj]
      rw [pop_step_of_not_has keys msg (by simpa using h)]
      simp
    · intro h
      refine ⟨(pop_step table keys msg).1, by simp [emit_list], ?_⟩
      exact (pop_step_of_has hnd keys msg (by simpa using h)).2
  | msg :: rest, keys, i + 1, hi => by
    have := emit_list_get hnd rest (keys ++ [(pop_step table keys msg).1]) i
      (by simpa using Nat.lt_of_succ_lt_succ hi)
    simpa [emit_list] using this

lemma pop_keys_go_spec {table : List (Str × Str)} (hnd : (table.map Prod.fst).Nodup) :
    ∀ (msgs keys : List Str) (missing : Nat) (warned : List Str),
      (pop_keys_go table msgs keys missing warned).keys = keys ++ emit_list table keys msgs ∧
      (pop_keys_go table msgs keys missing warned).missing =
        missing + (msgs.filter fun m => !has_msg table m).length ∧
      (pop_keys_go table msgs keys missing warned).warned = warned
  | [], keys, missing, warned => by simp [pop_keys_go, emit_list]
  | msg :: rest, keys, missing, warned => by
    have ih := pop_keys_go_spec hnd rest (keys ++ [(pop_step table keys msg).1])
      (missing + if (pop_step table keys msg).2.1 then 1 else 0)
      (warned ++ if (pop_step table keys msg).2.2 then [msg] else [])
    refine ⟨?_, ?_, ?_⟩
    · rw [show pop_keys_go table (msg :: rest) keys missing warned =
        pop_keys_go table rest (keys ++ [(pop_step table keys msg).1])
          (missing + if (pop_step table keys msg).2.1 then 1 else 0)
          (warned ++ if (pop_step table keys msg).2.2 then [msg] else []) from rfl]
      rw [ih.1]
      simp [emit_list]
    · rw [show pop_keys_go table (msg :: rest) keys missing warned =
        pop_keys_go table rest (keys ++ [(pop_step table keys msg).1])
          (missing + if (pop_step table keys msg).2.1 then 1 else 0)
          (warned ++ if (pop_step table keys msg).2.2 then [msg] else []) from rfl]
      rw [ih.2.1]
      cases hm : has_msg table msg
      · rw [pop_step_of_not_has keys msg hm]
        simp [List.filter_cons, hm, Nat.add_assoc, Nat.add_comm 1]
      · have := (pop_step_of_has hnd keys msg hm).1
        rw [this]
        simp [List.filter_cons, hm]
    · rw [show pop_keys_go table (msg :: rest) keys missing warned =
        pop_keys_go table rest (keys ++ [(pop_step table keys msg).1])
          (missing + if (pop_step table keys msg).2.1 then 1 else 0)
          (warned ++ if (pop_step table keys msg).2.2 then [msg] else []) from rfl]
      rw [ih.2.2, pop_step_no_warn hnd keys msg]
      simp

/-- C1: reconciliation emits exactly one key per input message in input order
(the output has the same length as the message sequence); every message with no
matching Key Table entry yields the sentinel key
`"<!MissingKey:" ++ first line of the message ++ ">"`, and the returned
missing-key count equals the number of such messages. -/
theorem pop_keys_reconciliation (table : List (Str × Str)) (msgs : List Str)
    (hnd : (table.map Prod.fst).Nodup) :
    (pop_keys table msgs).keys.length = msgs.length ∧
    (pop_keys table msgs).missing = (msgs.filter fun m => !has_msg table m).length ∧
    ∀ i, (hi : i < msgs.length) → has_msg table msgs[i] = false →
      (pop_keys table msgs).keys[i]? = some (sentinel_key msgs[i]) := by
  have hs := pop_keys_go_spec hnd msgs [] 0 []
  refine ⟨?_, ?_, ?_⟩
  · rw [show pop_keys table msgs = pop_keys_go table msgs [] 0 [] from rfl, hs.1]
    simp [emit_list_length]
  · rw [show pop_keys table msgs = pop_keys_go table msgs [] 0 [] from rfl, hs.2.1]
    exact Nat.zero_add _
  · intro i hi h
    rw [show pop_keys table msgs = pop_keys_go table msgs [] 0 [] from rfl, hs.1]
    simpa using (emit_list_get hnd msgs [] i hi).1 h

/-- Witness for C1 at a concrete table and message sequence. -/
theorem pop_keys_reconciliation_witness :
    (pop_keys [("K".data, "M".data)] ["M".data, "X".data]).keys.length
      = (["M".data, "X".data] : List Str).length ∧
    (pop_keys [("K".data, "M".data)] ["M".data, "X".data]).missing
      = ((["M".data, "X".data] : List Str).filter
          fun m => !has_msg [("K".data, "M".data)] m).length :=
  ⟨(pop_keys_reconciliation [("K".data, "M".data)] ["M".data, "X".data] (by decide)).1,
   (pop_keys_reconciliation [("K".data, "M".data)] ["M".data, "X".data] (by decide)).2.1⟩

/-- C4 counterexample.  Key Table `{"<!MissingKey:A>" ↦ "B"}`, messages
`["A", "B"]`: the first message has no match and emits the sentinel
`"<!MissingKey:A>"`; for the second message the only matching entry's key is
exactly that already-emitted key — i.e. the key was already used for an earlier
occurrence of a *different* message text ("A" vs "B") — yet no
data-inconsistency warning is logged (the code compares the message against the
table value of the matching key, which always matches, so the warning branch is
unreachable); the key is emitted again via the verbose duplicate path.  This
refutes the claim that a warning is logged in that situation. -/
theorem pop_keys_warning_counterexample :
    pop_keys [("<!MissingKey:A>".data, "B".data)] ["A".data, "B".data]
      = ⟨["<!MissingKey:A>".data, "<!MissingKey:A>".data], 1, []⟩ ∧
    "A".data ≠ "B".data ∧
    sentinel_key "A".data = "<!MissingKey:A>".data := by
  exact ⟨by decide, by decide, by decide⟩

/-- C4 (amended): the data-inconsistency warning is unreachable (given the Key
Table's key uniqueness, the stored message of the matching key always equals the
target message), so reconciliation never logs it; whenever any entry matches the
current message — including when the matching key was already emitted for an
earlier occurrence, of the same or of a different message — a key that the table
maps to this very message is emitted (never a sentinel), the message is not
counted missing, and the pass never aborts. -/
theorem pop_keys_duplicate_policy (table : List (Str × Str)) (msgs : List Str)
    (hnd : (table.map Prod.fst).Nodup) :
    (pop_keys table msgs).warned = [] ∧
    ∀ i, (hi : i < msgs.length) → has_msg table msgs[i] = true →
      ∃ k, (pop_keys table msgs).keys[i]? = some k ∧ (k, msgs[i]) ∈ table := by
  have hs := pop_keys_go_spec hnd msgs [] 0 []
  refine ⟨hs.2.2, ?_⟩
  intro i hi h
  rw [show pop_keys table msgs = pop_keys_go table msgs [] 0 [] from rfl, hs.1]
  simpa using (emit_list_get hnd msgs [] i hi).2 h

/-- Witness for C4's amended theorem: the duplicate key for the repeated message
is emitted with no warning. -/
theorem pop_keys_duplicate_policy_witness :
    (pop_keys [("K".data, "M".data)] ["M".data, "M".data]).warned = [] :=
  (pop_keys_duplicate_policy [("K".data, "M".data)] ["M".data, "M".data] (by decide)).1

/-! ### C5: numeric-suffix expansion -/

/-- Counterexample oracle for C5: keys `A0..A5` and `A10..A19` resolve. -/
def lkC5 : Str → Str := fun k =>
  if (["A0", "A1", "A2", "A3", "A4", "A5", "A10", "A11", "A12", "A13", "A14",
       "A15", "A16", "A17", "A18", "A19"].map String.data).contains k
  then 'M' :: k else []

/-- C5 counterexample.  With the magnitude hint supplied
(`skip_magnitude_check = true`), the first probed numeric range is `[0, 10)` and
6 of its 10 numbers hit — more than half — and the oracle also resolves `"A10"`;
yet the widening loop stops (the code's bar is `numbers_found >= max - min - 1`,
i.e. all but at most one), so `"A10"` is never probed or admitted.  This refutes
"doubles the range and continues whenever more than half of a probed numeric
range succeeds". -/
theorem try_num_suffix_counterexample :
    ((List.range' 0 10).filter fun n =>
        !(lkC5 ("A".data ++ Nat.toDigits 10 n)).isEmpty).length = 6 ∧
    10 < 2 * 6 ∧
    lkC5 "A10".data ≠ [] ∧
    table_has_key (try_num_suffix lkC5 initState "A".data [] true 5) "A10".data
      = false := by
  exact ⟨by decide, by decide, by decide, by decide⟩

/-- Amended-C5 oracle: keys `B1..B7` and `B16..B31` resolve. -/
def lkB : Str → Str := fun k =>
  if (["B1", "B2", "B3", "B4", "B5", "B6", "B7", "B16", "B17", "B18", "B19",
       "B20", "B21", "B22", "B23", "B24", "B25", "B26", "B27", "B28", "B29",
       "B30", "B31"].map String.data).contains k
  then 'M' :: k else []

/-- C5 (amended): `try_num_suffix` probes the literal suffix `"1"` first; only
when the magnitude hint is absent does it additionally probe `"01"`, `"001"`,
`"0001"`; once a hit was found or the hint was supplied it probes `"N"`, `"n"`,
`"0"` and then numeric ranges starting at 0 up to 10 (hint authoritative) or at
2 up to 4 (exploratory), formatted with the detected zero-padding; each range is
doubled and probing continues exactly when all but at most one of the probed
numeric range succeeded (`numbers_found ≥ max − min − 1`), and widening stops as
soon as two or more of a range miss.  The first two conjuncts state the stop and
widen laws of the loop; the rest exhibit the exploratory run on an oracle
resolving `B1..B7` and `B16..B31`: ranges `[2,4)` and `[4,8)` fully hit and are
widened, `[8,16)` misses entirely and stops the loop, so `B16` is never probed
although the oracle resolves it. -/
theorem try_num_suffix_amended :
    (∀ (lk : Str → Str) (res_s sfx : Str) (zpl mn mx fuel : Nat) (st : KWState),
      ((probe_range lk res_s sfx zpl (List.range' mn (mx - mn)) st).2 : Int) <
          (mx : Int) - (mn : Int) - 1 →
        num_widen_loop lk res_s sfx zpl (fuel + 1) mn mx st =
          (probe_range lk res_s sfx zpl (List.range' mn (mx - mn)) st).1) ∧
    (∀ (lk : Str → Str) (res_s sfx : Str) (zpl mn mx fuel : Nat) (st : KWState),
      ((probe_range lk res_s sfx zpl (List.range' mn (mx - mn)) st).2 : Int) ≥
          (mx : Int) - (mn : Int) - 1 →
        num_widen_loop lk res_s sfx zpl (fuel + 1) mn mx st =
          num_widen_loop lk res_s sfx zpl fuel mx (mx * 2)
            (probe_range lk res_s sfx zpl (List.range' mn (mx - mn)) st).1) ∧
    ((try_num_suffix lkB initState "B".data [] false 5).key_to_message.map Prod.fst
      = ["B1".data, "B2".data, "B3".data, "B4".data,
         "B5".data, "B6".data, "B7".data]) ∧
    lkB "B16".data ≠ [] ∧
    table_has_key (try_num_suffix lkB initState "B".data [] false 5) "B16".data
      = false := by
  refine ⟨?_, ?_, by decide, by decide, by decide⟩
  · intro lk res_s sfx zpl mn mx fuel st h
    simp only [num_widen_loop]
    rw [if_neg (not_le.mpr h)]
  · intro lk res_s sfx zpl mn mx fuel st h
    simp only [num_widen_loop]
    rw [if_pos h]

/-- Witness for C5's amended theorem: the stop law at a concrete all-miss oracle
(0 hits in `[0,10)` is below the all-but-one bar, so one iteration ends the
loop). -/
theorem try_num_suffix_amended_witness :
    num_widen_loop (fun _ => []) "X".data [] 0 1 0 10 initState =
      (probe_range (fun _ => []) "X".data [] 0 (List.range' 0 10) initState).1 :=
  try_num_suffix_amended.1 (fun _ => []) "X".data [] 0 0 10 0 initState (by decide)

/-! ### C6: affix discovery -/

/-- The keys of a counts map. -/
def keys_of (c : List (Str × Nat)) : List Str := c.map Prod.fst

/-- The count stored for `x` in a counts map (0 when absent). -/
def count_of : List (Str × Nat) → Str → Nat
  | [], _ => 0
  | e :: rest, x => if e.1 == x then e.2 else count_of rest x

@[simp] lemma keys_of_nil : keys_of [] = [] := rfl

@[simp] lemma keys_of_cons (e : Str × Nat) (c : List (Str × Nat)) :
    keys_of (e :: c) = e.1 :: keys_of c := rfl

lemma mem_keys_inc_go (part x : Str) : ∀ (c : List (Str × Nat)),
    x ∈ keys_of (inc_counts_go c part) ↔ x ∈ keys_of c ∨ x = part
  | [] => by simp [inc_counts_go]
  | e :: rest => by
    simp only [inc_counts_go]
    by_cases he : e.1 == part
    · rw [if_pos he]
      have hep : e.1 = part := by simpa using he
      subst hep
      simp only [keys_of_cons, List.mem_cons]
      tauto
    · rw [if_neg he]
      simp only [keys_of_cons, List.mem_cons, mem_keys_inc_go part x rest]
      tauto

lemma nodup_keys_inc_go (part : Str) : ∀ (c : List (Str × Nat)),
    (keys_of c).Nodup → (keys_of (inc_counts_go c part)).Nodup
  | [], _ => by simp [inc_counts_go]
  | e :: rest, hnd => by
    simp only [inc_counts_go]
    have h0 : e.1 ∉ keys_of rest ∧ (keys_of rest).Nodup := by
      simpa [List.nodup_cons] using hnd
    by_cases he : e.1 == part
    · rw [if_pos he]
      simpa [List.nodup_cons] using hnd
    · rw [if_neg he]
      refine List.nodup_cons.mpr ⟨?_, nodup_keys_inc_go part rest h0.2⟩
      intro hmem
      rcases (mem_keys_inc_go part e.1 rest).mp hmem with h | h
      · exact h0.1 h
      · exact absurd h (by simpa using he)

lemma count_of_inc_go_self (part : Str) : ∀ (c : List (Str × Nat)),
    count_of (inc_counts_go c part) part = count_of c part + 1
  | [] => by simp [inc_counts_go, count_of]
  | e :: rest => by
    simp only [inc_counts_go]
    by_cases he : e.1 == part
    · rw [if_pos he]
      simp [count_of, he]
    · rw [if_neg he]
      have hb : (e.1 == part) = false := by simpa using he
      simp only [count_of, hb, Bool.false_eq_true, if_false]
      exact count_of_inc_go_self part rest

lemma count_of_inc_go_other (part x : Str) (hx : x ≠ part) : ∀ (c : List (Str × Nat)),
    count_of (inc_counts_go c part) x = count_of c x
  | [] => by
    have hpx : (part == x) = false := beq_eq_false_iff_ne.mpr fun h => hx h.symm
    simp [inc_counts_go, count_of, hpx]
  | e :: rest => by
    simp only [inc_counts_go]
    by_cases he : e.1 == part
    · rw [if_pos he]
      have hep : e.1 = part := by simpa using he
      have hex : (e.1 == x) = false := by
        refine beq_eq_false_iff_ne.mpr ?_
        rw [hep]
        exact fun h => hx h.symm
      simp [count_of, hex]
    · rw [if_neg he]
      by_cases hex : e.1 == x
      · simp [count_of, hex]
      · simp [count_of, hex, count_of_inc_go_other part x hx rest]

lemma count_of_foldl (x : Str) (hx : x ≠ []) : ∀ (fs : List Str) (c : List (Str × Nat)),
    count_of (fs.foldl inc_counts c) x = count_of c x + fs.count x
  | [], c => by simp
  | f :: fs, c => by
    rw [List.foldl_cons, count_of_foldl x hx fs (inc_counts c f), List.count_cons]
    by_cases hf : f = x
    · have hfe : ¬f.isEmpty = true := by
        rw [hf]
        simpa [List.isEmpty_iff] using hx
      rw [inc_counts, if_neg hfe, hf, count_of_inc_go_self]
      simp
      omega
    · have hfx : (f == x) = false := beq_eq_false_iff_ne.mpr hf
      by_cases hfe : f.isEmpty
      · rw [inc_counts, if_pos hfe]
        simp [hfx]
      · rw [inc_counts, if_neg hfe,
          count_of_inc_go_other f x (fun h => hf h.symm) c]
        simp [hfx]

lemma mem_keys_foldl (x : Str) : ∀ (fs : List Str) (c : List (Str × Nat)),
    x ∈ keys_of (fs.foldl inc_counts c) ↔ x ∈ keys_of c ∨ (x ≠ [] ∧ x ∈ fs)
  | [], c => by simp
  | f :: fs, c => by
    rw [List.foldl_cons, mem_keys_foldl x fs (inc_counts c f)]
    by_cases hfe : f.isEmpty
    · rw [inc_counts, if_pos hfe]
      have hf : f = [] := by simpa [List.isEmpty_iff] using hfe
      subst hf
      simp only [List.mem_cons]
      constructor
      · rintro (h | ⟨hne, hmem⟩)
        · exact Or.inl h
        · exact Or.inr ⟨hne, Or.inr hmem⟩
      · rintro (h | ⟨hne, rfl | hmem⟩)
        · exact Or.inl h
        · exact absurd rfl hne
        · exact Or.inr ⟨hne, hmem⟩
    · rw [inc_counts, if_neg hfe]
      have hf : f ≠ [] := by simpa [List.isEmpty_iff] using hfe
      rw [mem_keys_inc_go]
      simp only [List.mem_cons]
      constructor
      · rintro ((h | rfl) | ⟨hne, hmem⟩)
        · exact Or.inl h
        · exact Or.inr ⟨hf, Or.inl rfl⟩
        · exact Or.inr ⟨hne, Or.inr hmem⟩
      · rintro (h | ⟨hne, rfl | hmem⟩)
        · exact Or.inl (Or.inl h)
        · exact Or.inl (Or.inr rfl)
        · exact Or.inr ⟨hne, hmem⟩

lemma nodup_keys_foldl : ∀ (fs : List Str) (c : List (Str × Nat)),
    (keys_of c).Nodup → (keys_of (fs.foldl inc_counts c)).Nodup
  | [], _, h => h
  | f :: fs, c, h => by
    rw [List.foldl_cons]
    refine nodup_keys_foldl fs (inc_counts c f) ?_
    by_cases hfe : f.isEmpty
    · rwa [inc_counts, if_pos hfe]
    · rw [inc_counts, if_neg hfe]
      exact nodup_keys_inc_go f c h

lemma mem_entry_count (x : Str) : ∀ (c : List (Str × Nat)),
    x ∈ keys_of c → (x, count_of c x) ∈ c
  | [] => by simp
  | e :: rest => by
    intro hm
    by_cases he : e.1 == x
    · have hex : e.1 = x := by simpa using he
      have hcnt : count_of (e :: rest) x = e.2 := by simp [count_of, he]
      rw [hcnt]
      refine List.mem_cons.mpr (Or.inl ?_)
      rw [← hex]
    · simp only [count_of, he, if_neg he]
      rcases List.mem_cons.mp (by simpa using hm) with h | h
      · exact absurd h.symm (by simpa using he)
      · exact List.mem_cons_of_mem e (mem_entry_count x rest h)

lemma entry_count_of_nodup : ∀ {c : List (Str × Nat)} {x : Str} {n : Nat},
    (keys_of c).Nodup → (x, n) ∈ c → count_of c x = n := by
  intro c
  induction c with
  | nil => intro x n _ h; simp at h
  | cons e rest ih =>
    intro x n hnd hm
    have h0 : e.1 ∉ keys_of rest ∧ (keys_of rest).Nodup := by
      simpa [List.nodup_cons] using hnd
    rcases List.mem_cons.mp hm with he | hm
    · rw [← he]
      simp [count_of]
    · have hx : x ∈ keys_of rest := List.mem_map.mpr ⟨(x, n), hm, rfl⟩
      have hne : (e.1 == x) = false :=
        beq_eq_false_iff_ne.mpr fun h => h0.1 (h ▸ hx)
      simp only [count_of, hne, if_neg (by simp [hne] : ¬(e.1 == x) = true)]
      exact ih h0.2 hm

lemma mem_retain_fold (th : Nat) (x : Str) : ∀ (counts : List (Str × Nat)) (init : List Str),
    x ∈ retain_fold counts th init ↔ x ∈ init ∨ ∃ n, (x, n) ∈ counts ∧ th ≤ n
  | [], init => by simp [retain_fold]
  | e :: counts, init => by
    have hstep : retain_fold (e :: counts) th init =
        retain_fold counts th
          (if th ≤ e.2 && !init.contains e.1 then init ++ [e.1] else init) := rfl
    rw [hstep, mem_retain_fold th x counts]
    by_cases hth : th ≤ e.2
    · by_cases hc : init.contains e.1
      · have hmem : e.1 ∈ init := List.elem_iff.mp hc
        rw [if_neg (by simp [hc]; exact fun _ => hmem)]
        constructor
        · rintro (h | h)
          · exact Or.inl h
          · exact Or.inr (by
              obtain ⟨n, hn, hthn⟩ := h
              exact ⟨n, List.mem_cons_of_mem e hn, hthn⟩)
        · rintro (h | ⟨n, hn, hthn⟩)
          · exact Or.inl h
          · rcases List.mem_cons.mp hn with he2 | hn
            · refine Or.inl ?_
              have : x = e.1 := by
                have := congrArg Prod.fst he2
                simpa using this
              exact this ▸ hmem
            · exact Or.inr ⟨n, hn, hthn⟩
      · have hnmem : e.1 ∉ init := fun h => hc (List.elem_iff.mpr h)
        rw [if_pos (by simp [hth, hnmem])]
        constructor
        · rintro (h | h)
          · rcases List.mem_append.mp h with h | h
            · exact Or.inl h
            · refine Or.inr ⟨e.2, ?_, hth⟩
              have hx : x = e.1 := by simpa using h
              exact List.mem_cons.mpr (Or.inl (by rw [hx]))
          · obtain ⟨n, hn, hthn⟩ := h
            exact Or.inr ⟨n, List.mem_cons_of_mem e hn, hthn⟩
        · rintro (h | ⟨n, hn, hthn⟩)
          · exact Or.inl (List.mem_append.mpr (Or.inl h))
          · rcases List.mem_cons.mp hn with he2 | hn
            · refine Or.inl (List.mem_append.mpr (Or.inr ?_))
              have : x = e.1 := by
                have := congrArg Prod.fst he2
                simpa using this
              simp [this]
            · exact Or.inr ⟨n, hn, hthn⟩
    · rw [if_neg (by simp [hth])]
      constructor
      · rintro (h | h)
        · exact Or.inl h
        · obtain ⟨n, hn, hthn⟩ := h
          exact Or.inr ⟨n, List.mem_cons_of_mem e hn, hthn⟩
      · rintro (h | ⟨n, hn, hthn⟩)
        · exact Or.inl h
        · rcases List.mem_cons.mp hn with he2 | hn
          · exfalso
            have : n = e.2 := by
              have := congrArg Prod.snd he2
              simpa using this
            exact hth (this ▸ hthn)
          · exact Or.inr ⟨n, hn, hthn⟩

lemma mem_insert_by_len (x y : Str) : ∀ (l : List Str),
    x ∈ insert_by_len y l ↔ x = y ∨ x ∈ l
  | [] => by simp [insert_by_len]
  | z :: zs => by
    simp only [insert_by_len]
    by_cases h : z.length < y.length
    · rw [if_pos h]
      simp only [List.mem_cons]
    · rw [if_neg h]
      simp only [List.mem_cons, mem_insert_by_len x y zs]
      tauto

lemma sorted_insert_by_len (y : Str) : ∀ (l : List Str),
    l.Pairwise (fun a b => b.length ≤ a.length) →
    (insert_by_len y l).Pairwise (fun a b => b.length ≤ a.length)
  | [], _ => by simp [insert_by_len]
  | z :: zs, h => by
    obtain ⟨hz, hzs⟩ := List.pairwise_cons.mp h
    simp only [insert_by_len]
    by_cases hlt : z.length < y.length
    · rw [if_pos hlt]
      refine List.pairwise_cons.mpr ⟨?_, h⟩
      intro b hb
      rcases List.mem_cons.mp hb with rfl | hb
      · exact Nat.le_of_lt hlt
      · exact le_trans (hz b hb) (Nat.le_of_lt hlt)
    · rw [if_neg hlt]
      refine List.pairwise_cons.mpr ⟨?_, sorted_insert_by_len y zs hzs⟩
      intro b hb
      rcases (mem_insert_by_len b y zs).mp hb with rfl | hb
      · exact Nat.le_of_not_lt hlt
      · exact hz b hb

lemma mem_sort_len_desc (x : Str) : ∀ (l : List Str), x ∈ sort_len_desc l ↔ x ∈ l
  | [] => by simp [sort_len_desc]
  | y :: ys => by
    simp only [sort_len_desc, List.foldr_cons]
    rw [mem_insert_by_len]
    rw [show (List.foldr insert_by_len [] ys) = sort_len_desc ys from rfl,
      mem_sort_len_desc x ys]
    simp only [List.mem_cons]

lemma sorted_sort_len_desc : ∀ (l : List Str),
    (sort_len_desc l).Pairwise (fun a b => b.length ≤ a.length)
  | [] => by simp [sort_len_desc]
  | y :: ys => by
    simp only [sort_len_desc, List.foldr_cons]
    exact sorted_insert_by_len y _ (sorted_sort_len_desc ys)

/-- The retained-and-sorted list built from a fragment stream contains exactly
the non-empty fragments whose occurrence count reaches the threshold. -/
lemma retained_iff (th : Nat) (ht : 1 ≤ th) (x : Str) (stream : List Str) :
    x ∈ sort_len_desc (retain_fold (stream.foldl inc_counts []) th []) ↔
      x ≠ [] ∧ th ≤ stream.count x := by
  rw [mem_sort_len_desc, mem_retain_fold]
  simp only [List.not_mem_nil, false_or]
  constructor
  · rintro ⟨n, hmem, hn⟩
    have hx : x ∈ keys_of (stream.foldl inc_counts []) :=
      List.mem_map.mpr ⟨(x, n), hmem, rfl⟩
    have hx2 := (mem_keys_foldl x stream []).mp hx
    simp only [keys_of_nil, List.not_mem_nil, false_or] at hx2
    obtain ⟨hne, _⟩ := hx2
    have hcount : count_of (stream.foldl inc_counts []) x = n :=
      entry_count_of_nodup (nodup_keys_foldl stream [] (by simp)) hmem
    have hfold := count_of_foldl x hne stream []
    have h0 : count_of ([] : List (Str × Nat)) x = 0 := rfl
    rw [h0, hcount] at hfold
    exact ⟨hne, by omega⟩
  · rintro ⟨hne, hth⟩
    have hmem : x ∈ stream := List.count_pos_iff.mp (by omega)
    have hx : x ∈ keys_of (stream.foldl inc_counts []) :=
      (mem_keys_foldl x stream []).mpr (Or.inr ⟨hne, hmem⟩)
    have hcount := count_of_foldl x hne stream []
    have h0 : count_of ([] : List (Str × Nat)) x = 0 := rfl
    rw [h0] at hcount
    refine ⟨count_of (stream.foldl inc_counts []) x, mem_entry_count x _ hx, ?_⟩
    omega

/-- The corpus used by the spec's affix-discovery example. -/
def corpusC6 : List Str :=
  ["Dialog_Title".data, "Dialog_Body".data, "Dialog_Footer".data, "Menu_Title".data]

/-- C6 counterexample.  On the corpus
`["Dialog_Title", "Dialog_Body", "Dialog_Footer", "Menu_Title"]` with threshold 2
and `'_'` in the punctuation set, the claimed common prefix `"Dialog_"` is *not*
among the returned prefixes: the algorithm counts the first punctuation-delimited
part (`"Dialog"`, count 3) and re-includes boundary punctuation only before
interior parts (loop `for i in 1 .. parts.size()-2`), so no counted fragment
ever ends in `'_'`; the returned common-prefix list is exactly `["Dialog"]`. -/
theorem affix_discovery_counterexample :
    "Dialog_".data ∉ (find_common_affixes ['_'] corpusC6 2).1 ∧
    (find_common_affixes ['_'] corpusC6 2).1 = ["Dialog".data] ∧
    (find_common_affixes ['_'] corpusC6 2).2 = ["Title".data] := by
  exact ⟨by decide, by decide, by decide⟩

/-- C6 (amended): a fragment is retained as a common prefix or suffix exactly
when it is non-empty and its occurrence count across the corpus's cumulative
fragment stream is at least the count threshold; results are sorted by
descending length; and on the corpus `["Dialog_Title", "Dialog_Body",
"Dialog_Footer", "Menu_Title"]` with threshold 2 (and `'_'` in the punctuation
set) the string `"Dialog"` — the first punctuation-delimited part, without the
trailing underscore — is among the returned common prefixes while neither
`"Menu_"` nor `"Menu"` is. -/
theorem affix_discovery_amended (punct : List Char) (corpus : List Str)
    (threshold : Nat) (ht : 1 ≤ threshold) :
    (∀ x : Str, x ∈ (find_common_affixes punct corpus threshold).1 ↔
      x ≠ [] ∧ threshold ≤ (all_pfx_frags punct corpus).count x) ∧
    (∀ x : Str, x ∈ (find_common_affixes punct corpus threshold).2 ↔
      x ≠ [] ∧ threshold ≤ (all_sfx_frags punct corpus).count x) ∧
    (find_common_affixes punct corpus threshold).1.Pairwise
      (fun a b => b.length ≤ a.length) ∧
    (find_common_affixes punct corpus threshold).2.Pairwise
      (fun a b => b.length ≤ a.length) ∧
    "Dialog".data ∈ (find_common_affixes ['_'] corpusC6 2).1 ∧
    "Menu_".data ∉ (find_common_affixes ['_'] corpusC6 2).1 ∧
    "Menu".data ∉ (find_common_affixes ['_'] corpusC6 2).1 := by
  refine ⟨?_, ?_, ?_, ?_, by decide, by decide, by decide⟩
  · intro x
    exact retained_iff threshold ht x (all_pfx_frags punct corpus)
  · intro x
    exact retained_iff threshold ht x (all_sfx_frags punct corpus)
  · exact sorted_sort_len_desc _
  · exact sorted_sort_len_desc _

/-- Witness for C6's amended theorem: on the example corpus, `"Dialog"` is
retained because its fragment count 3 meets threshold 2. -/
theorem affix_discovery_amended_witness :
    "Dialog".data ∈ (find_common_affixes ['_'] corpusC6 2).1 :=
  (affix_discovery_amended ['_'] corpusC6 2 (by decide)).2.2.2.2.1

end GDTR
